/-
Verification of the reversi-rust engine specification.

The definitions below are a shallow embedding of the Rust sources:
  * `src/reversi.rs`            — `Color`
  * `src/reversi/board.rs`      — `Field`, `Board`, the capture engine and the
                                  game-status engine
  * `src/play/player/minimax_bot.rs` — `MinimaxStrategy`, `eval`, `minimax`

Rust `usize` values are modelled as `Nat` (all arithmetic stays far below any
overflow boundary), `i32` as `Int` together with the explicit constants
`i32MIN`/`i32MAX` (the only places the i32 range matters are the sentinel
values; the piece-count differential lies in [-64, 64]).  Mutation is modelled
by explicit state passing: `add_piece` returns the new board next to the
`Result` value.  Rust `Result<T, PlaceError>` becomes `Except PlaceError T`.
-/
import Mathlib

set_option maxHeartbeats 1000000
set_option maxRecDepth 4000

namespace Reversi

/-- Rust `Color` from `src/reversi.rs`. -/
inductive Color where
  | black
  | white
deriving DecidableEq, Repr

/-- Rust `Color::other` from `src/reversi.rs`. -/
def Color.other : Color → Color
  | .black => .white
  | .white => .black

/-- Rust `Field` from `src/reversi/board.rs`: `pub struct Field(pub usize, pub usize)`.
`x` is the first component (column), `y` the second (row). -/
structure Field where
  x : Nat
  y : Nat
deriving DecidableEq, Repr

/-- Rust `Field::in_bounds`. -/
def Field.in_bounds (f : Field) : Bool :=
  f.x < 8 && f.y < 8

/-- Rust `Field::all`: `(0..8).flat_map(move |x| (0..8).map(move |y| Self(x, y)))`. -/
def Field.all : List Field :=
  (List.range 8).flatMap fun x => (List.range 8).map fun y => Field.mk x y

/-- Rust `Field::neighbors`.  The Rust code iterates `delta_x` and `delta_y` over
`[-1, 0, 1]` (including the pair `(0, 0)`), converts the shifted coordinates
back to `usize` (skipping negatives) and keeps the in-bounds results. -/
def Field.neighbors (f : Field) : List Field :=
  ([-1, 0, 1] : List Int).flatMap fun dx =>
    ([-1, 0, 1] : List Int).filterMap fun dy =>
      let x : Int := (f.x : Int) + dx
      let y : Int := (f.y : Int) + dy
      if 0 ≤ x ∧ 0 ≤ y then
        let nf : Field := ⟨x.toNat, y.toNat⟩
        if nf.in_bounds then some nf else none
      else none

/-- Rust `impl ToString for Field`: letter `'a' + x`, digit `8 - y` (the Rust code
asserts `in_bounds`; the claims below only use in-bounds fields).  Strings are
modelled as `List Char`. -/
def Field.format (f : Field) : List Char :=
  [Char.ofNat (97 + f.x), Char.ofNat (48 + (8 - f.y))]

/-- Rust `PlaceError` from `src/reversi/board.rs`. -/
inductive PlaceError where
  | invalidLength
  | invalidNumber
  | occupied
  | outOfBounds
  | capturesNone
deriving DecidableEq, Repr

/-- Rust `char::to_digit(10)`: `Some(d)` exactly for the ASCII digits `'0'..='9'`. -/
def charToDigit (c : Char) : Option Nat :=
  if 48 ≤ c.toNat ∧ c.toNat ≤ 57 then some (c.toNat - 48) else none

/-- Rust `('a'..='h').position(|c| c == x)` from `Field::from_str`. -/
def letterPos (x : Char) : Option Nat :=
  ['a', 'b', 'c', 'd', 'e', 'f', 'g', 'h'].findIdx? fun c => decide (c = x)

/-- Rust `usize::checked_sub(8, y)`. -/
def checkedSub8 (y : Nat) : Option Nat :=
  if y ≤ 8 then some (8 - y) else none

/-- Rust `impl FromStr for Field`.  The Rust code reads the first character
(`InvalidLength` when missing), reads and digit-parses the second character
(`InvalidLength` when missing, `InvalidNumber` when not a decimal digit),
then rejects a third character (`InvalidLength`), then resolves the letter
(`OutOfBounds` when outside `'a'..='h'`) and computes `8 - digit` with
`checked_sub` (`OutOfBounds` when the digit exceeds 8). -/
def Field.from_str (s : List Char) : Except PlaceError Field :=
  match s with
  | [] => .error .invalidLength
  | [_] => .error .invalidLength
  | cx :: cy :: rest =>
    match charToDigit cy with
    | none => .error .invalidNumber
    | some d =>
      if rest ≠ [] then .error .invalidLength
      else
        match letterPos cx with
        | none => .error .outOfBounds
        | some px =>
          match checkedSub8 d with
          | none => .error .outOfBounds
          | some py => .ok ⟨px, py⟩

deriving instance DecidableEq for Except

/-- Rust `GameStatus` from `src/reversi/board.rs`. -/
inductive GameStatus where
  | inProgress
  | win (c : Color)
  | draw
deriving DecidableEq, Repr

/-- Rust `Board` from `src/reversi/board.rs`: `pub struct Board(pub [[Option<Color>; 8]; 8])`.
The array is indexed row-first: `self.0[field.1][field.0]`. -/
def Board := Fin 8 → Fin 8 → Option Color

/-- Rust `Index<Field> for Board`: `self.0[field.1][field.0]`.  All reads performed
by the engine are guarded by bounds checks, so the `none` fallback for an
out-of-bounds field is never observed. -/
def Board.get (b : Board) (f : Field) : Option Color :=
  if h : f.y < 8 ∧ f.x < 8 then b ⟨f.y, h.1⟩ ⟨f.x, h.2⟩ else none

/-- Rust `IndexMut<Field> for Board` used as a write: the cell `[f.1][f.0]` is
replaced, everything else is untouched.  A write to an out-of-bounds field
(never performed by the engine) leaves the board unchanged. -/
def Board.set (b : Board) (f : Field) (v : Option Color) : Board :=
  fun r c => if r.val = f.y ∧ c.val = f.x then v else b r c

/-- Rust `Board::empty`. -/
def Board.empty : Board := fun _ _ => none

/-- Rust `Board::new`: the four centre cells get `White` on even coordinate sum and
`Black` on odd coordinate sum. -/
def Board.new : Board :=
  (([3, 4] : List Nat).flatMap fun x => ([3, 4] : List Nat).map fun y => Field.mk x y).foldl
    (fun b f => b.set f (some (if (f.x + f.y) % 2 = 0 then .white else .black)))
    Board.empty

/-- Rust `Board::flip`: `self[field] = self[field].map(Color::other)`. -/
def Board.flip (b : Board) (f : Field) : Board :=
  b.set f ((b.get f).map Color.other)

/-- Rust `Board::count_pieces`. -/
def Board.count_pieces (b : Board) (color : Color) : Nat :=
  (Field.all.filter fun f => decide (b.get f = some color)).length

/-- The Rust inclusive range `a..=b` as a list (`[]` when `b < a`). -/
def rangeIncl (a b : Nat) : List Nat :=
  List.range' a (b + 1 - a)

/-- Rust `Board::line_between`.  `range_x`/`range_y` are the ascending inclusive
ranges between the minima and maxima of the two coordinates; a vertical,
horizontal or diagonal raw line is built exactly as in the Rust code, lines
shorter than 3 are discarded, and the surviving line is sliced to
`line[1..len - 1]` (the open interval between the two endpoints). -/
def Board.line_between (f o : Field) : Option (List Field) :=
  let range_x := rangeIncl (min f.x o.x) (max f.x o.x)
  let range_y := rangeIncl (min f.y o.y) (max f.y o.y)
  let raw : Option (List Field) :=
    if f.x = o.x then
      some (range_y.map fun y => Field.mk f.x y)
    else if f.y = o.y then
      some (range_x.map fun x => Field.mk x f.y)
    else if max f.x o.x - min f.x o.x = max f.y o.y - min f.y o.y then
      if (f.x > o.x ∧ f.y > o.y) ∨ (f.x < o.x ∧ f.y < o.y) then
        some (List.zipWith Field.mk range_x range_y)
      else
        some (List.zipWith Field.mk range_x range_y.reverse)
    else
      none
  (raw.bind fun line => if line.length < 3 then none else some line).map
    fun line => (line.drop 1).take (line.length - 2)

/-- The captured-piece computation inside `Board::move_validity`: every
same-colored `other` field (in `Field::all` order) contributes its
`line_between` interval when the whole interval holds the opposite color; the
surviving intervals are concatenated. -/
def Board.captures (b : Board) (f : Field) (color : Color) : List Field :=
  (((Field.all.filter fun o => decide (b.get o = some color)).filterMap
      fun o => Board.line_between f o).filter
    fun line => line.all fun g => decide (b.get g = some color.other)).flatten

/-- Rust `Board::move_validity`. -/
def Board.move_validity (b : Board) (f : Field) (color : Color) :
    Except PlaceError (List Field) :=
  if ¬f.in_bounds then .error .outOfBounds
  else if (b.get f).isSome then .error .occupied
  else if f.neighbors.all fun g => (b.get g).isNone then .error .capturesNone
  else
    let captured_pieces := b.captures f color
    if captured_pieces.isEmpty then .error .capturesNone
    else .ok captured_pieces

/-- Rust `Board::is_valid`. -/
def Board.is_valid (b : Board) (f : Field) (color : Color) : Bool :=
  (b.move_validity f color).toBool

/-- Rust `Board::valid_moves`. -/
def Board.valid_moves (b : Board) (color : Color) : List Field :=
  Field.all.filter fun f => (b.move_validity f color).toBool

/-- Rust `Board::add_piece`.  Mutation is modelled by returning the updated board
next to the result; on a `move_validity` failure the original board is
returned (the Rust `?` returns before any write). -/
def Board.add_piece (b : Board) (f : Field) (color : Color) :
    Board × Except PlaceError (List Field) :=
  match b.move_validity f color with
  | .error e => (b, .error e)
  | .ok captured_pieces =>
    ((captured_pieces.foldl (fun bd g => bd.flip g) (b.set f (some color))),
      .ok captured_pieces)

/-- Rust `Board::final_status`: compare the White count with the Black count. -/
def Board.final_status (b : Board) : GameStatus :=
  match compare (b.count_pieces .white) (b.count_pieces .black) with
  | .lt => .win .black
  | .gt => .win .white
  | .eq => .draw

/-- Rust `Board::status`. -/
def Board.status (b : Board) : GameStatus :=
  if !(Field.all.all fun f => (b.get f).isSome) then
    match b.count_pieces .white, b.count_pieces .black with
    | 0, _ => .win .black
    | _, 0 => .win .white
    | _, _ =>
      if (b.valid_moves .white).isEmpty && (b.valid_moves .black).isEmpty then
        b.final_status
      else
        .inProgress
  else
    b.final_status

/-- Rust `i32::MIN`. -/
def i32MIN : Int := -2147483648

/-- Rust `i32::MAX`. -/
def i32MAX : Int := 2147483647

/-- Rust `MinimaxStrategy` from `src/play/player/minimax_bot.rs`. -/
inductive MinimaxStrategy where
  | minimize
  | maximize
deriving DecidableEq, Repr

/-- Rust `MinimaxStrategy::other`. -/
def MinimaxStrategy.other : MinimaxStrategy → MinimaxStrategy
  | .minimize => .maximize
  | .maximize => .minimize

/-- Rust `MinimaxStrategy::worst_value`. -/
def MinimaxStrategy.worst_value : MinimaxStrategy → Int
  | .minimize => i32MAX
  | .maximize => i32MIN

/-- Rust `impl From<MinimaxStrategy> for Color`. -/
def MinimaxStrategy.color : MinimaxStrategy → Color
  | .minimize => .black
  | .maximize => .white

/-- Rust `MinimaxBot::eval`.  Piece counts are at most 64, so the `i32` subtraction
never overflows and is modelled as plain `Int` subtraction. -/
def eval (b : Board) : Int :=
  match b.status with
  | .win .white => i32MAX
  | .win .black => i32MIN
  | .draw => 0
  | .inProgress =>
    (b.count_pieces .white : Int) - (b.count_pieces .black : Int)

/-- The body of the `for field in board.valid_moves(...)` loop in
`MinimaxBot::minimax`: replace the current best choice by `(Some(field), ev)`
when the child evaluation `ev` is `<=` (Minimize) respectively `>=` (Maximize)
the current best value. -/
def minimaxChoose (strategy : MinimaxStrategy) (best : Option Field × Int)
    (f : Field) (ev : Int) : Option Field × Int :=
  match strategy with
  | .minimize => if ev ≤ best.2 then (some f, ev) else best
  | .maximize => if best.2 ≤ ev then (some f, ev) else best

/-- Rust `MinimaxBot::minimax`.  The Rust guard `depth == 0 || status != InProgress`
is split into the `0` pattern and the status test; the loop over
`valid_moves` accumulating `best_choice` is a left fold starting from
`(None, strategy.worst_value())`. -/
def minimax (b : Board) : Nat → MinimaxStrategy → Option Field × Int
  | 0, _ => (none, eval b)
  | depth + 1, strategy =>
    if b.status ≠ .inProgress then (none, eval b)
    else
      (b.valid_moves strategy.color).foldl
        (fun best f =>
          let child := (b.add_piece f strategy.color).1
          let ev := (minimax child depth strategy.other).2
          minimaxChoose strategy best f ev)
        (none, strategy.worst_value)

/-!  ### Basic lemmas about colors, fields and boards  -/

theorem Color.other_other (c : Color) : c.other.other = c := by
  cases c <;> rfl

theorem Color.other_ne (c : Color) : c.other ≠ c := by
  cases c <;> simp [Color.other]

theorem Field.ext' {a b : Field} (hx : a.x = b.x) (hy : a.y = b.y) : a = b := by
  cases a; cases b; simp_all

theorem Field.mem_all {f : Field} : f ∈ Field.all ↔ f.x < 8 ∧ f.y < 8 := by
  cases f with
  | mk x y =>
    simp [Field.all, List.mem_flatMap, List.mem_map, List.mem_range]

theorem Field.all_nodup : Field.all.Nodup := by decide

theorem Board.get_some_in_bounds {b : Board} {p : Field} {v : Color}
    (h : b.get p = some v) : p.in_bounds = true := by
  unfold Board.get at h
  split at h
  · rename_i hb
    simp [Field.in_bounds]
    omega
  · exact absurd h (by simp)

theorem Board.get_set_self {b : Board} {f : Field} {v : Option Color}
    (hf : f.in_bounds = true) : (b.set f v).get f = v := by
  simp [Field.in_bounds] at hf
  simp [Board.set, Board.get, hf.1, hf.2]

theorem Board.get_set_ne {b : Board} {f g : Field} {v : Option Color}
    (hne : g ≠ f) : (b.set f v).get g = b.get g := by
  unfold Board.set Board.get
  split
  · rename_i hg
    have : ¬((g.y : Nat) = f.y ∧ (g.x : Nat) = f.x) := by
      intro hc
      exact hne (Field.ext' hc.2 hc.1)
    simp [this]
  · rfl

theorem Board.get_flip_self {b : Board} {f : Field} (hf : f.in_bounds = true) :
    (b.flip f).get f = (b.get f).map Color.other := by
  simp [Board.flip, Board.get_set_self hf]

theorem Board.get_flip_ne {b : Board} {f g : Field} (hne : g ≠ f) :
    (b.flip f).get g = b.get g := by
  simp [Board.flip, Board.get_set_ne hne]

/-!  ### Closed form of `line_between`

`line_between f o` (when it returns a line) walks from `f` towards `o` along
one of the eight compass directions `(dx, dy)`; the returned list holds the
cells at `f + i·(dx, dy)` for `1 ≤ i ≤ n - 1` where `o = f + n·(dx, dy)`.
These lemmas derive that closed form from the `min`/`max`/`zip` code shape.  -/

theorem take_range' (n : Nat) :
    ∀ (k a : Nat), (List.range' a n).take k = List.range' a (min k n) := by
  induction n with
  | zero => intro k a; simp
  | succ m ih =>
    intro k a
    cases k with
    | zero => simp
    | succ k' =>
      have hmin : min (k' + 1) (m + 1) = min k' m + 1 := by omega
      rw [List.range'_succ, List.take_succ_cons, ih, hmin, List.range'_succ]

theorem slice_map_range (g : Nat → Field) (m : Nat) :
    (((List.range m).map g).drop 1).take (((List.range m).map g).length - 2) =
      (List.range (m - 2)).map fun k => g (k + 1) := by
  rw [List.length_map, List.length_range, ← List.map_drop, ← List.map_take]
  have hr : (List.range (m - 2)).map (fun k => g (k + 1)) =
      ((List.range (m - 2)).map fun k => k + 1).map g := by
    rw [List.map_map]; rfl
  rw [hr]
  congr 1
  rcases m with _ | _ | m'
  · simp
  · simp
  · have h1 : (List.range (m' + 2)).drop 1 = List.range' 1 (m' + 1) := by
      rw [List.range_eq_range', List.range'_succ]
      simp
    rw [h1, take_range']
    have h2 : min (m' + 2 - 2) (m' + 1) = m' := by omega
    rw [h2, List.range'_eq_map_range]
    refine List.map_congr_left fun a _ => by omega

theorem zipWith_range' (a c : Nat) :
    ∀ m : Nat, List.zipWith Field.mk (List.range' a m) (List.range' c m) =
      (List.range m).map fun k => Field.mk (a + k) (c + k) := by
  intro m
  induction m generalizing a c with
  | zero => simp
  | succ m' ih =>
    rw [List.range'_succ, List.range'_succ, List.zipWith_cons_cons, ih,
      List.range_succ_eq_map, List.map_cons, List.map_map]
    simp only [Nat.add_zero]
    congr 1
    refine List.map_congr_left fun k _ => ?_
    simp [Nat.succ_eq_add_one]
    constructor <;> omega

theorem zipWith_range'_rev (a c : Nat) (m : Nat) :
    List.zipWith Field.mk (List.range' a m) (List.range' c m).reverse =
      (List.range m).map fun k => Field.mk (a + k) (c + m - 1 - k) := by
  rw [List.reverse_range', List.range'_eq_map_range, List.zipWith_map,
    List.zipWith_same]

/-- The closed form of a successful `line_between f o`: the interval runs
from `f` towards `o` in a single compass direction `(dx, dy)` and holds
exactly the cells at `f + i·(dx, dy)` for `1 ≤ i < n`, where
`o = f + n·(dx, dy)` and `n ≥ 2`. -/
def LineChar (f o : Field) (l : List Field) : Prop :=
  ∃ dx dy : Int, ∃ n : Nat,
    dx.natAbs ≤ 1 ∧ dy.natAbs ≤ 1 ∧ ¬(dx = 0 ∧ dy = 0) ∧ 2 ≤ n ∧
    (o.x : Int) = f.x + n * dx ∧ (o.y : Int) = f.y + n * dy ∧
    l.Nodup ∧
    ∀ p : Field, p ∈ l ↔
      ∃ i : Nat, 1 ≤ i ∧ i < n ∧ (p.x : Int) = f.x + i * dx ∧ (p.y : Int) = f.y + i * dy

/-- Packaging lemma for the branches whose produced list is enumerated from
`f` outwards: the k-th entry sits at `f + (k+1)·(dx, dy)`. -/
theorem lineChar_forward (f o : Field) (l : List Field) (dx dy : Int) (n : Nat)
    (g : Nat → Field)
    (hdx : dx.natAbs ≤ 1) (hdy : dy.natAbs ≤ 1) (hd : ¬(dx = 0 ∧ dy = 0)) (hn : 2 ≤ n)
    (hox : (o.x : Int) = f.x + n * dx) (hoy : (o.y : Int) = f.y + n * dy)
    (hg : ∀ i ≤ n, ((g i).x : Int) = f.x + i * dx ∧ ((g i).y : Int) = f.y + i * dy)
    (m : Nat) (hm : m = n - 1) (hl : l = (List.range m).map fun k => g (k + 1)) :
    LineChar f o l := by
  rw [hm] at hl
  refine ⟨dx, dy, n, hdx, hdy, hd, hn, hox, hoy, ?_, ?_⟩
  · rw [hl]
    refine List.Nodup.map_on ?_ (List.nodup_range _)
    intro i hi j hj hij
    rw [List.mem_range] at hi hj
    have h1 := (hg (i + 1) (by omega)).1
    have h2 := (hg (j + 1) (by omega)).1
    have h3 := (hg (i + 1) (by omega)).2
    have h4 := (hg (j + 1) (by omega)).2
    rw [hij] at h1 h3
    rcases not_and_or.mp hd with hne | hne
    · have : ((i : Int) + 1) * dx = ((j : Int) + 1) * dx := by push_cast at h1 h2 ⊢; omega
      have := mul_right_cancel₀ hne this
      omega
    · have : ((i : Int) + 1) * dy = ((j : Int) + 1) * dy := by push_cast at h3 h4 ⊢; omega
      have := mul_right_cancel₀ hne this
      omega
  · intro p
    rw [hl]
    constructor
    · intro hp
      rcases List.mem_map.mp hp with ⟨k, hk, hgk⟩
      rw [List.mem_range] at hk
      refine ⟨k + 1, by omega, by omega, ?_, ?_⟩
      · rw [← hgk]; exact (hg (k + 1) (by omega)).1
      · rw [← hgk]; exact (hg (k + 1) (by omega)).2
    · rintro ⟨i, hi1, hin, hpx, hpy⟩
      refine List.mem_map.mpr ⟨i - 1, List.mem_range.mpr (by omega), ?_⟩
      have hi : i - 1 + 1 = i := by omega
      rw [hi]
      have h1 := (hg i (by omega)).1
      have h2 := (hg i (by omega)).2
      exact Field.ext' (by omega) (by omega)

/-- Packaging lemma for the branches whose produced list is enumerated from
the `o` end: the k-th entry sits at `f + (n-(k+1))·(dx, dy)`. -/
theorem lineChar_rev (f o : Field) (l : List Field) (dx dy : Int) (n : Nat)
    (g : Nat → Field)
    (hdx : dx.natAbs ≤ 1) (hdy : dy.natAbs ≤ 1) (hd : ¬(dx = 0 ∧ dy = 0)) (hn : 2 ≤ n)
    (hox : (o.x : Int) = f.x + n * dx) (hoy : (o.y : Int) = f.y + n * dy)
    (hg : ∀ i ≤ n, ((g i).x : Int) = f.x + ((n : Int) - i) * dx ∧
      ((g i).y : Int) = f.y + ((n : Int) - i) * dy)
    (m : Nat) (hm : m = n - 1) (hl : l = (List.range m).map fun k => g (k + 1)) :
    LineChar f o l := by
  rw [hm] at hl
  refine ⟨dx, dy, n, hdx, hdy, hd, hn, hox, hoy, ?_, ?_⟩
  · rw [hl]
    refine List.Nodup.map_on ?_ (List.nodup_range _)
    intro i hi j hj hij
    rw [List.mem_range] at hi hj
    have h1 := (hg (i + 1) (by omega)).1
    have h2 := (hg (j + 1) (by omega)).1
    have h3 := (hg (i + 1) (by omega)).2
    have h4 := (hg (j + 1) (by omega)).2
    rw [hij] at h1 h3
    rcases not_and_or.mp hd with hne | hne
    · have : ((n : Int) - (i + 1)) * dx = ((n : Int) - (j + 1)) * dx := by
        push_cast at h1 h2 ⊢; omega
      have := mul_right_cancel₀ hne this
      omega
    · have : ((n : Int) - (i + 1)) * dy = ((n : Int) - (j + 1)) * dy := by
        push_cast at h3 h4 ⊢; omega
      have := mul_right_cancel₀ hne this
      omega
  · intro p
    rw [hl]
    constructor
    · intro hp
      rcases List.mem_map.mp hp with ⟨k, hk, hgk⟩
      rw [List.mem_range] at hk
      have h1 := (hg (k + 1) (by omega)).1
      have h2 := (hg (k + 1) (by omega)).2
      have hcast : ((n - (k + 1) : Nat) : Int) = (n : Int) - ((k + 1 : Nat) : Int) := by
        omega
      refine ⟨n - (k + 1), by omega, by omega, ?_, ?_⟩
      · rw [← hgk, h1, hcast]
      · rw [← hgk, h2, hcast]
    · rintro ⟨i, hi1, hin, hpx, hpy⟩
      refine List.mem_map.mpr ⟨n - i - 1, List.mem_range.mpr (by omega), ?_⟩
      have hk : n - i - 1 + 1 = n - i := by omega
      rw [hk]
      have h1 := (hg (n - i) (by omega)).1
      have h2 := (hg (n - i) (by omega)).2
      have hcast : ((n : Int) - (n - i : Nat)) = i := by omega
      rw [hcast] at h1 h2
      exact Field.ext' (by omega) (by omega)

/-- Every successful `line_between` satisfies the directional closed form. -/
theorem line_between_char {f o : Field} {l : List Field}
    (h : Board.line_between f o = some l) : LineChar f o l := by
  by_cases hx : f.x = o.x
  · -- vertical line
    simp only [Board.line_between, if_pos hx, Option.some_bind] at h
    split at h
    · simp at h
    · rename_i hlen3
      rw [Option.map_some'] at h
      have hsl := Option.some.inj h
      rw [rangeIncl, List.range'_eq_map_range, List.map_map] at hsl hlen3
      rw [List.length_map, List.length_range] at hlen3
      rw [slice_map_range] at hsl
      rcases Nat.lt_trichotomy f.y o.y with hy | hy | hy
      · refine lineChar_forward f o l 0 1 (o.y - f.y)
          ((fun y => Field.mk f.x y) ∘ fun x => min f.y o.y + x)
          (by decide) (by decide) (by simp) (by omega) (by omega)
          (by omega) ?_ _ (by omega) hsl.symm
        intro i hi
        exact ⟨by simp only [Function.comp_apply]; omega,
          by simp only [Function.comp_apply]; omega⟩
      · exfalso; omega
      · refine lineChar_rev f o l 0 (-1) (f.y - o.y)
          ((fun y => Field.mk f.x y) ∘ fun x => min f.y o.y + x)
          (by decide) (by decide) (by simp) (by omega) (by omega)
          (by omega) ?_ _ (by omega) hsl.symm
        intro i hi
        exact ⟨by simp only [Function.comp_apply]; omega,
          by simp only [Function.comp_apply]; omega⟩
  · by_cases hy : f.y = o.y
    · -- horizontal line
      simp only [Board.line_between, if_neg hx, if_pos hy, Option.some_bind] at h
      split at h
      · simp at h
      · rename_i hlen3
        rw [Option.map_some'] at h
        have hsl := Option.some.inj h
        rw [rangeIncl, List.range'_eq_map_range, List.map_map] at hsl hlen3
        rw [List.length_map, List.length_range] at hlen3
        rw [slice_map_range] at hsl
        rcases Nat.lt_trichotomy f.x o.x with hxs | hxs | hxs
        · refine lineChar_forward f o l 1 0 (o.x - f.x)
            ((fun x => Field.mk x f.y) ∘ fun a => min f.x o.x + a)
            (by decide) (by decide) (by simp) (by omega) (by omega)
            (by omega) ?_ _ (by omega) hsl.symm
          intro i hi
          exact ⟨by simp only [Function.comp_apply]; omega,
            by simp only [Function.comp_apply]; omega⟩
        · exact absurd hxs hx
        · refine lineChar_rev f o l (-1) 0 (f.x - o.x)
            ((fun x => Field.mk x f.y) ∘ fun a => min f.x o.x + a)
            (by decide) (by decide) (by simp) (by omega) (by omega)
            (by omega) ?_ _ (by omega) hsl.symm
          intro i hi
          exact ⟨by simp only [Function.comp_apply]; omega,
            by simp only [Function.comp_apply]; omega⟩
    · by_cases hdist : max f.x o.x - min f.x o.x = max f.y o.y - min f.y o.y
      · by_cases hsgn : (f.x > o.x ∧ f.y > o.y) ∨ (f.x < o.x ∧ f.y < o.y)
        · -- diagonal \ (both coordinates move in the same direction)
          simp only [Board.line_between, if_neg hx, if_neg hy, if_pos hdist,
            if_pos hsgn, Option.some_bind] at h
          split at h
          · simp at h
          · rename_i hlen3
            rw [Option.map_some'] at h
            have hsl := Option.some.inj h
            rw [rangeIncl, rangeIncl] at hsl hlen3
            rw [show max f.y o.y + 1 - min f.y o.y = max f.x o.x + 1 - min f.x o.x
              from by omega] at hsl hlen3
            rw [zipWith_range'] at hsl hlen3
            rw [List.length_map, List.length_range] at hlen3
            rw [slice_map_range] at hsl
            rcases hsgn with ⟨h1, h2⟩ | ⟨h1, h2⟩
            · refine lineChar_rev f o l (-1) (-1) (f.x - o.x)
                (fun k => Field.mk (min f.x o.x + k) (min f.y o.y + k))
                (by decide) (by decide) (by simp) (by omega) (by omega)
                (by omega) ?_ _ (by omega) hsl.symm
              intro i hi
              exact ⟨by simp only []; omega, by simp only []; omega⟩
            · refine lineChar_forward f o l 1 1 (o.x - f.x)
                (fun k => Field.mk (min f.x o.x + k) (min f.y o.y + k))
                (by decide) (by decide) (by simp) (by omega) (by omega)
                (by omega) ?_ _ (by omega) hsl.symm
              intro i hi
              exact ⟨by simp only []; omega, by simp only []; omega⟩
        · -- diagonal / (coordinates move in opposite directions)
          simp only [Board.line_between, if_neg hx, if_neg hy, if_pos hdist,
            if_neg hsgn, Option.some_bind] at h
          split at h
          · simp at h
          · rename_i hlen3
            rw [Option.map_some'] at h
            have hsl := Option.some.inj h
            rw [rangeIncl, rangeIncl] at hsl hlen3
            rw [show max f.y o.y + 1 - min f.y o.y = max f.x o.x + 1 - min f.x o.x
              from by omega] at hsl hlen3
            rw [zipWith_range'_rev] at hsl hlen3
            rw [List.length_map, List.length_range] at hlen3
            rw [slice_map_range] at hsl
            rcases Nat.lt_trichotomy f.x o.x with hxs | hxs | hxs
            · refine lineChar_forward f o l 1 (-1) (o.x - f.x)
                (fun k => Field.mk (min f.x o.x + k)
                  (min f.y o.y + (max f.x o.x + 1 - min f.x o.x) - 1 - k))
                (by decide) (by decide) (by simp) (by omega) (by omega)
                (by omega) ?_ _ (by omega) hsl.symm
              intro i hi
              exact ⟨by simp only []; omega, by simp only []; omega⟩
            · exact absurd hxs hx
            · refine lineChar_rev f o l (-1) 1 (f.x - o.x)
                (fun k => Field.mk (min f.x o.x + k)
                  (min f.y o.y + (max f.x o.x + 1 - min f.x o.x) - 1 - k))
                (by decide) (by decide) (by simp) (by omega) (by omega)
                (by omega) ?_ _ (by omega) hsl.symm
              intro i hi
              exact ⟨by simp only []; omega, by simp only []; omega⟩
      · -- no line
        simp only [Board.line_between, if_neg hx, if_neg hy, if_neg hdist] at h
        simp at h

/-!  ### No duplicates among captured pieces  -/

/-- Two scaled compass directions that meet in a common point are the same
direction with the same scale. -/
theorem dir_eq {dx1 dy1 dx2 dy2 : Int} {i j : Nat}
    (hdx1 : dx1.natAbs ≤ 1) (hdy1 : dy1.natAbs ≤ 1) (hnz1 : ¬(dx1 = 0 ∧ dy1 = 0))
    (hdx2 : dx2.natAbs ≤ 1) (hdy2 : dy2.natAbs ≤ 1) (hnz2 : ¬(dx2 = 0 ∧ dy2 = 0))
    (hi : 1 ≤ i) (hj : 1 ≤ j)
    (hx : (i : Int) * dx1 = j * dx2) (hy : (i : Int) * dy1 = j * dy2) :
    dx1 = dx2 ∧ dy1 = dy2 ∧ i = j := by
  have h1 : dx1 = -1 ∨ dx1 = 0 ∨ dx1 = 1 := by omega
  have h2 : dy1 = -1 ∨ dy1 = 0 ∨ dy1 = 1 := by omega
  have h3 : dx2 = -1 ∨ dx2 = 0 ∨ dx2 = 1 := by omega
  have h4 : dy2 = -1 ∨ dy2 = 0 ∨ dy2 = 1 := by omega
  rcases h1 with h1 | h1 | h1 <;> rcases h2 with h2 | h2 | h2 <;>
    rcases h3 with h3 | h3 | h3 <;> rcases h4 with h4 | h4 | h4 <;>
    subst h1 <;> subst h2 <;> subst h3 <;> subst h4 <;> omega

/-- Lines towards two *distinct* anchors of the mover's color cannot share a
cell once both lines consist purely of opponent pieces: a shared cell forces
both lines onto the same compass ray from `f`, and then the nearer anchor lies
strictly inside the longer line, contradicting that the line holds only
opponent pieces. -/
theorem lines_disjoint {b : Board} {f o1 o2 : Field} {c : Color} {l1 l2 : List Field}
    (ho1 : b.get o1 = some c) (ho2 : b.get o2 = some c) (hne : o1 ≠ o2)
    (h1 : Board.line_between f o1 = some l1) (h2 : Board.line_between f o2 = some l2)
    (hall1 : ∀ p ∈ l1, b.get p = some c.other)
    (hall2 : ∀ p ∈ l2, b.get p = some c.other) :
    l1.Disjoint l2 := by
  intro p hp1 hp2
  obtain ⟨dx1, dy1, n1, hdx1, hdy1, hnz1, hn1, hox1, hoy1, _, hmem1⟩ := line_between_char h1
  obtain ⟨dx2, dy2, n2, hdx2, hdy2, hnz2, hn2, hox2, hoy2, _, hmem2⟩ := line_between_char h2
  obtain ⟨i, hi1, hin, hpx1, hpy1⟩ := (hmem1 p).mp hp1
  obtain ⟨j, hj1, hjn, hpx2, hpy2⟩ := (hmem2 p).mp hp2
  have hx' : (i : Int) * dx1 = j * dx2 := by omega
  have hy' : (i : Int) * dy1 = j * dy2 := by omega
  obtain ⟨hdx, hdy, hij⟩ := dir_eq hdx1 hdy1 hnz1 hdx2 hdy2 hnz2 hi1 hj1 hx' hy'
  subst hdx
  subst hdy
  rcases Nat.lt_trichotomy n1 n2 with hlt | heq | hlt
  · have ho1l2 : o1 ∈ l2 := (hmem2 o1).mpr ⟨n1, by omega, hlt, hox1, hoy1⟩
    have hcontra := hall2 o1 ho1l2
    rw [ho1] at hcontra
    exact Color.other_ne c (Option.some.inj hcontra).symm
  · apply hne
    rw [heq] at hox1 hoy1
    exact Field.ext' (by exact_mod_cast hox1.trans hox2.symm)
      (by exact_mod_cast hoy1.trans hoy2.symm)
  · have ho2l1 : o2 ∈ l1 := (hmem1 o2).mpr ⟨n2, by omega, hlt, hox2, hoy2⟩
    have hcontra := hall1 o2 ho2l1
    rw [ho2] at hcontra
    exact Color.other_ne c (Option.some.inj hcontra).symm

/-- The list of captured pieces computed by `move_validity` never repeats a
coordinate, for any board, target and color. -/
theorem captures_nodup (b : Board) (f : Field) (c : Color) :
    (b.captures f c).Nodup := by
  unfold Board.captures
  rw [List.nodup_flatten]
  constructor
  · intro l hl
    rw [List.mem_filter] at hl
    obtain ⟨o, _, holb⟩ := List.mem_filterMap.mp hl.1
    obtain ⟨_, _, _, _, _, _, _, _, _, hnd, _⟩ := line_between_char holb
    exact hnd
  · have hanchors : (Field.all.filter fun o => decide (b.get o = some c)).Pairwise
        fun o1 o2 => o1 ≠ o2 ∧ b.get o1 = some c ∧ b.get o2 = some c := by
      refine List.Pairwise.imp_of_mem ?_ (Field.all_nodup.filter _)
      intro o1 o2 h1 h2 hne
      rw [List.mem_filter] at h1 h2
      refine ⟨hne, ?_, ?_⟩
      · exact of_decide_eq_true h1.2
      · exact of_decide_eq_true h2.2
    have hpair : ((Field.all.filter fun o => decide (b.get o = some c)).filterMap
        fun o => Board.line_between f o).Pairwise
          fun l1 l2 => (∀ p ∈ l1, b.get p = some c.other) →
            (∀ p ∈ l2, b.get p = some c.other) → l1.Disjoint l2 := by
      rw [List.pairwise_filterMap]
      refine hanchors.imp ?_
      rintro o1 o2 ⟨hne, h1c, h2c⟩ l1 hl1 l2 hl2 hall1 hall2
      exact lines_disjoint h1c h2c hne hl1 hl2 hall1 hall2
    refine List.Pairwise.imp_of_mem ?_ (hpair.sublist (List.filter_sublist _))
    intro l1 l2 h1 h2 himp
    rw [List.mem_filter, List.all_eq_true] at h1 h2
    refine himp ?_ ?_
    · intro p hp
      exact of_decide_eq_true (h1.2 p hp)
    · intro p hp
      exact of_decide_eq_true (h2.2 p hp)

/-!  ### Neighbors and the fast-path  -/

/-- Every element of `neighbors` is in bounds (checked over all 64 fields). -/
theorem neighbors_in_bounds_all :
    ∀ f ∈ Field.all, ∀ g ∈ f.neighbors, g.in_bounds = true := by decide

/-- Completeness of `neighbors` over in-bounds pairs (checked over all 64 × 64
pairs): every in-bounds field at Chebyshev distance at most 1 is a neighbor. -/
theorem neighbors_complete_all :
    ∀ f ∈ Field.all, ∀ g ∈ Field.all,
      g.x ≤ f.x + 1 → f.x ≤ g.x + 1 → g.y ≤ f.y + 1 → f.y ≤ g.y + 1 →
        g ∈ f.neighbors := by decide

/-- Soundness of `neighbors` over all 64 fields: every neighbor is at
Chebyshev distance at most 1. -/
theorem neighbors_sound_all :
    ∀ f ∈ Field.all, ∀ g ∈ f.neighbors,
      g.x ≤ f.x + 1 ∧ f.x ≤ g.x + 1 ∧ g.y ≤ f.y + 1 ∧ f.y ≤ g.y + 1 := by decide

theorem mem_all_of_in_bounds {f : Field} (hf : f.in_bounds = true) : f ∈ Field.all := by
  rw [Field.mem_all]
  simp [Field.in_bounds] at hf
  exact hf

/-- For an in-bounds field `f`, membership in `f.neighbors` is exactly:
in bounds and at Chebyshev distance at most 1 (`f` itself included). -/
theorem mem_neighbors_iff {f g : Field} (hf : f.in_bounds = true) :
    g ∈ f.neighbors ↔
      g.in_bounds = true ∧ g.x ≤ f.x + 1 ∧ f.x ≤ g.x + 1 ∧ g.y ≤ f.y + 1 ∧ f.y ≤ g.y + 1 := by
  have hfa := mem_all_of_in_bounds hf
  constructor
  · intro hg
    exact ⟨neighbors_in_bounds_all f hfa g hg, neighbors_sound_all f hfa g hg⟩
  · rintro ⟨hgb, h1, h2, h3, h4⟩
    exact neighbors_complete_all f hfa g (mem_all_of_in_bounds hgb) h1 h2 h3 h4

theorem Board.get_oob {b : Board} {f : Field} (h : ¬f.in_bounds = true) :
    b.get f = none := by
  unfold Board.get
  split
  · rename_i hc
    exfalso
    apply h
    simp [Field.in_bounds]
    omega
  · rfl

/-- When no cell around the (in-bounds) target is occupied, the full
anchor/line scan finds nothing: the first cell of any surviving line would be
an occupied neighbor of the target. -/
theorem captures_eq_nil {b : Board} {f : Field} {c : Color} (hf : f.in_bounds = true)
    (hemp : (f.neighbors.all fun g => (b.get g).isNone) = true) :
    b.captures f c = [] := by
  rw [List.eq_nil_iff_forall_not_mem]
  intro p hp
  unfold Board.captures at hp
  obtain ⟨l, hl, _⟩ := List.mem_flatten.mp hp
  rw [List.mem_filter, List.all_eq_true] at hl
  obtain ⟨o, _, holb⟩ := List.mem_filterMap.mp hl.1
  obtain ⟨dx, dy, n, hdx, hdy, hnz, hn, hox, hoy, _, hmem⟩ := line_between_char holb
  have hdx3 : dx = -1 ∨ dx = 0 ∨ dx = 1 := by omega
  have hdy3 : dy = -1 ∨ dy = 0 ∨ dy = 1 := by omega
  have hxnn : 0 ≤ (f.x : Int) + dx := by
    rcases hdx3 with h | h | h <;> subst h <;> omega
  have hynn : 0 ≤ (f.y : Int) + dy := by
    rcases hdy3 with h | h | h <;> subst h <;> omega
  have hp1x : ((((f.x : Int) + dx).toNat : Nat) : Int) = (f.x : Int) + 1 * dx := by
    rw [Int.toNat_of_nonneg hxnn, one_mul]
  have hp1y : ((((f.y : Int) + dy).toNat : Nat) : Int) = (f.y : Int) + 1 * dy := by
    rw [Int.toNat_of_nonneg hynn, one_mul]
  have hp1 : (⟨((f.x : Int) + dx).toNat, ((f.y : Int) + dy).toNat⟩ : Field) ∈ l :=
    (hmem _).mpr ⟨1, le_refl 1, by omega, hp1x, hp1y⟩
  have hocc := of_decide_eq_true (hl.2 _ hp1)
  have hbnd := Board.get_some_in_bounds hocc
  have hnb : (⟨((f.x : Int) + dx).toNat, ((f.y : Int) + dy).toNat⟩ : Field) ∈ f.neighbors := by
    refine (mem_neighbors_iff hf).mpr ⟨hbnd, ?_, ?_, ?_, ?_⟩ <;>
      · simp only []
        rcases hdx3 with h | h | h <;> rcases hdy3 with h' | h' | h' <;>
          subst h <;> subst h' <;> omega
  rw [List.all_eq_true] at hemp
  have hnone := hemp _ hnb
  rw [hocc] at hnone
  simp at hnone

/-- Variant `move_validity_nofast`: `move_validity` with the neighbor fast-path removed, following the spec's
description of the scan as steps 1, 2, 4–7 only (step 3 skipped). -/
def Board.move_validity_nofast (b : Board) (f : Field) (color : Color) :
    Except PlaceError (List Field) :=
  if ¬f.in_bounds then .error .outOfBounds
  else if (b.get f).isSome then .error .occupied
  else
    let captured_pieces := b.captures f color
    if captured_pieces.isEmpty then .error .capturesNone
    else .ok captured_pieces

theorem move_validity_eq_nofast (b : Board) (f : Field) (c : Color) :
    b.move_validity f c = b.move_validity_nofast f c := by
  unfold Board.move_validity Board.move_validity_nofast
  by_cases h1 : ¬f.in_bounds
  · simp only [if_pos h1]
  · simp only [if_neg h1]
    by_cases h2 : (b.get f).isSome
    · simp only [if_pos h2]
    · simp only [if_neg h2]
      by_cases h3 : (f.neighbors.all fun g => (b.get g).isNone) = true
      · rw [if_pos h3]
        have hcap : b.captures f c = [] :=
          captures_eq_nil (by simpa using h1) h3
        rw [hcap]
        simp
      · rw [if_neg h3]

/-!  ### Effect of `add_piece` on the board  -/

theorem move_validity_ok {b : Board} {f : Field} {c : Color} {l : List Field}
    (h : b.move_validity f c = .ok l) :
    l = b.captures f c ∧ f.in_bounds = true ∧ b.get f = none := by
  unfold Board.move_validity at h
  by_cases h1 : ¬f.in_bounds
  · rw [if_pos h1] at h
    exact absurd h (by simp)
  · rw [if_neg h1] at h
    by_cases h2 : (b.get f).isSome
    · rw [if_pos h2] at h
      exact absurd h (by simp)
    · rw [if_neg h2] at h
      by_cases h3 : (f.neighbors.all fun g => (b.get g).isNone) = true
      · rw [if_pos h3] at h
        exact absurd h (by simp)
      · rw [if_neg h3] at h
        by_cases h4 : (b.captures f c).isEmpty
        · rw [if_pos h4] at h
          exact absurd h (by simp)
        · rw [if_neg h4] at h
          exact ⟨(Except.ok.inj h).symm, by simpa using h1,
            Option.not_isSome_iff_eq_none.mp h2⟩

theorem captures_mem {b : Board} {f : Field} {c : Color} {p : Field}
    (hp : p ∈ b.captures f c) : b.get p = some c.other := by
  unfold Board.captures at hp
  obtain ⟨l, hl, hpl⟩ := List.mem_flatten.mp hp
  rw [List.mem_filter, List.all_eq_true] at hl
  exact of_decide_eq_true (hl.2 p hpl)

theorem foldl_flip_get_not_mem (todo : List Field) :
    ∀ (bd : Board) (g : Field), g ∉ todo →
      (todo.foldl (fun b0 p => b0.flip p) bd).get g = bd.get g := by
  induction todo with
  | nil => intro bd g _; rfl
  | cons a t ih =>
    intro bd g hg
    rw [List.mem_cons, not_or] at hg
    rw [List.foldl_cons, ih _ _ hg.2]
    exact Board.get_flip_ne hg.1

theorem foldl_flip_get_mem (todo : List Field) :
    ∀ (bd : Board) (g : Field), todo.Nodup → g ∈ todo →
      (todo.foldl (fun b0 p => b0.flip p) bd).get g = (bd.get g).map Color.other := by
  induction todo with
  | nil => intro bd g _ hg; exact absurd hg (by simp)
  | cons a t ih =>
    intro bd g hnd hg
    rw [List.foldl_cons]
    rcases List.mem_cons.mp hg with rfl | hgt
    · have hat : g ∉ t := (List.nodup_cons.mp hnd).1
      rw [foldl_flip_get_not_mem t _ _ hat]
      by_cases hb : g.in_bounds = true
      · exact Board.get_flip_self hb
      · rw [Board.get_oob hb, Board.get_oob hb]
        rfl
    · have hga : g ≠ a := by
        intro hc
        exact (List.nodup_cons.mp hnd).1 (hc ▸ hgt)
      rw [ih (bd.flip a) g (List.nodup_cons.mp hnd).2 hgt, Board.get_flip_ne hga]

/-- Pointwise description of a successful `add_piece`: the target becomes the
mover's color, the captured cells become the mover's color, everything else is
untouched; before the move the target was empty and all captured cells held
the opponent. -/
theorem add_piece_char {b : Board} {f : Field} {c : Color} {b' : Board}
    {cap : List Field} (h : b.add_piece f c = (b', .ok cap)) :
    cap.Nodup ∧ f.in_bounds = true ∧ b.get f = none ∧
      (∀ p ∈ cap, b.get p = some c.other) ∧ f ∉ cap ∧
      b'.get f = some c ∧ (∀ p ∈ cap, b'.get p = some c) ∧
      ∀ g : Field, g ≠ f → g ∉ cap → b'.get g = b.get g := by
  unfold Board.add_piece at h
  cases hmv : b.move_validity f c with
  | error e =>
    rw [hmv] at h
    exact absurd (congrArg Prod.snd h) (by simp)
  | ok captured =>
    rw [hmv] at h
    have hb' : b' = captured.foldl (fun bd g => bd.flip g) (b.set f (some c)) :=
      (congrArg Prod.fst h).symm
    have hcap : cap = captured := (Except.ok.inj (congrArg Prod.snd h)).symm
    obtain ⟨hlcap, hfb, hfnone⟩ := move_validity_ok hmv
    subst hcap
    subst hlcap
    have hnd : (b.captures f c).Nodup := captures_nodup b f c
    have hmemc : ∀ p ∈ b.captures f c, b.get p = some c.other := fun p hp =>
      captures_mem hp
    have hfnot : f ∉ b.captures f c := by
      intro hc
      rw [hmemc f hc] at hfnone
      exact absurd hfnone (by simp)
    refine ⟨hnd, hfb, hfnone, hmemc, hfnot, ?_, ?_, ?_⟩
    · rw [hb', foldl_flip_get_not_mem _ _ _ hfnot, Board.get_set_self hfb]
    · intro p hp
      have hpf : p ≠ f := by
        intro hc
        exact hfnot (hc ▸ hp)
      rw [hb', foldl_flip_get_mem _ _ _ hnd hp, Board.get_set_ne hpf, hmemc p hp]
      simp [Color.other_other]
    · intro g hgf hgcap
      rw [hb', foldl_flip_get_not_mem _ _ _ hgcap, Board.get_set_ne hgf]

/-!  ### Counting lemmas  -/

theorem countP_add_of_change (p p' : Field → Bool) (S : List Field) :
    ∀ l : List Field,
      (∀ x ∈ l, x ∈ S → p x = false ∧ p' x = true) →
      (∀ x ∈ l, x ∉ S → p' x = p x) →
      l.countP p' = l.countP p + (l.filter fun x => decide (x ∈ S)).length := by
  intro l
  induction l with
  | nil => simp
  | cons a t ih =>
    intro hchange hsame
    have ht := ih (fun x hx => hchange x (by simp [hx]))
      (fun x hx => hsame x (by simp [hx]))
    rw [List.countP_cons, List.countP_cons, List.filter_cons, ht]
    by_cases ha : a ∈ S
    · have hca := hchange a (by simp) ha
      rw [hca.1, hca.2]
      simp [ha]
      omega
    · have hsa := hsame a (by simp) ha
      rw [hsa]
      simp only [decide_eq_false ha, Bool.false_eq_true, if_false]
      omega

theorem filter_mem_length {S l : List Field} (hS : S.Nodup) (hl : l.Nodup)
    (hsub : ∀ x ∈ S, x ∈ l) :
    (l.filter fun x => decide (x ∈ S)).length = S.length := by
  have hperm : (l.filter fun x => decide (x ∈ S)).Perm S := by
    rw [List.perm_ext_iff_of_nodup (hl.filter _) hS]
    intro a
    rw [List.mem_filter]
    constructor
    · rintro ⟨_, h⟩
      exact of_decide_eq_true h
    · intro h
      exact ⟨hsub a h, decide_eq_true h⟩
  exact hperm.length_eq

/-- Piece-count bookkeeping of a successful `add_piece`: the mover gains the
captured pieces plus the newly placed one, the opponent loses exactly the
captured pieces. -/
theorem add_piece_counts {b : Board} {f : Field} {c : Color} {b' : Board}
    {cap : List Field} (h : b.add_piece f c = (b', .ok cap)) :
    b'.count_pieces c = b.count_pieces c + cap.length + 1 ∧
      b.count_pieces c.other = b'.count_pieces c.other + cap.length := by
  obtain ⟨hnd, hfb, hfnone, hbefore, hfnot, hafterf, haftercap, hunch⟩ := add_piece_char h
  have hcapsub : ∀ x ∈ cap, x ∈ Field.all := fun x hx =>
    mem_all_of_in_bounds (Board.get_some_in_bounds (hbefore x hx))
  have hfall : f ∈ Field.all := mem_all_of_in_bounds hfb
  constructor
  · -- the mover's count
    have hS : (f :: cap).Nodup := List.nodup_cons.mpr ⟨hfnot, hnd⟩
    have hchange : ∀ x ∈ Field.all, x ∈ f :: cap →
        (decide (b.get x = some c)) = false ∧ (decide (b'.get x = some c)) = true := by
      intro x _ hxS
      rcases List.mem_cons.mp hxS with rfl | hxcap
      · refine ⟨decide_eq_false ?_, decide_eq_true hafterf⟩
        rw [hfnone]
        simp
      · refine ⟨decide_eq_false ?_, decide_eq_true (haftercap x hxcap)⟩
        rw [hbefore x hxcap]
        simp
        exact Color.other_ne c
    have hsame : ∀ x ∈ Field.all, x ∉ f :: cap →
        (decide (b'.get x = some c)) = (decide (b.get x = some c)) := by
      intro x _ hxS
      rw [List.mem_cons, not_or] at hxS
      rw [hunch x hxS.1 hxS.2]
    have hcount := countP_add_of_change (fun g => decide (b.get g = some c))
      (fun g => decide (b'.get g = some c)) (f :: cap) Field.all hchange hsame
    have hflen : (Field.all.filter fun x => decide (x ∈ f :: cap)).length =
        (f :: cap).length := by
      refine filter_mem_length hS Field.all_nodup ?_
      intro x hx
      rcases List.mem_cons.mp hx with rfl | hxcap
      · exact hfall
      · exact hcapsub x hxcap
    unfold Board.count_pieces
    rw [← List.countP_eq_length_filter, ← List.countP_eq_length_filter, hcount, hflen]
    simp
    omega
  · -- the opponent's count
    have hchange : ∀ x ∈ Field.all, x ∈ cap →
        (decide (b'.get x = some c.other)) = false ∧
          (decide (b.get x = some c.other)) = true := by
      intro x _ hxcap
      refine ⟨decide_eq_false ?_, decide_eq_true (hbefore x hxcap)⟩
      rw [haftercap x hxcap]
      simp
      intro hc
      exact Color.other_ne c hc.symm
    have hsame : ∀ x ∈ Field.all, x ∉ cap →
        (decide (b.get x = some c.other)) = (decide (b'.get x = some c.other)) := by
      intro x _ hxcap
      by_cases hxf : x = f
      · subst hxf
        rw [hfnone, hafterf]
        simp
        intro hc
        exact Color.other_ne c hc.symm
      · rw [hunch x hxf hxcap]
    have hcount := countP_add_of_change (fun g => decide (b'.get g = some c.other))
      (fun g => decide (b.get g = some c.other)) cap Field.all hchange hsame
    have hflen : (Field.all.filter fun x => decide (x ∈ cap)).length = cap.length :=
      filter_mem_length hnd Field.all_nodup hcapsub
    unfold Board.count_pieces
    rw [← List.countP_eq_length_filter, ← List.countP_eq_length_filter, hcount, hflen]

/-!  ### The game-status engine under a double pass  -/

theorem status_of_double_pass {b : Board}
    (hfull : (Field.all.all fun f => (b.get f).isSome) = false)
    (hw : b.count_pieces .white ≠ 0) (hb : b.count_pieces .black ≠ 0)
    (hvw : b.valid_moves .white = []) (hvb : b.valid_moves .black = []) :
    b.status = b.final_status := by
  unfold Board.status
  rw [hfull]
  simp only [Bool.not_false, if_true]
  rw [hvw, hvb]
  simp

theorem final_status_spec (b : Board) :
    b.final_status =
      (if b.count_pieces .black < b.count_pieces .white then .win .white
        else if b.count_pieces .white < b.count_pieces .black then .win .black
        else .draw) := by
  unfold Board.final_status
  rcases Nat.lt_trichotomy (b.count_pieces .white) (b.count_pieces .black) with h | h | h
  · rw [Nat.compare_eq_lt.mpr h, if_neg (by omega), if_pos h]
  · rw [Nat.compare_eq_eq.mpr h, if_neg (by omega), if_neg (by omega)]
  · rw [Nat.compare_eq_gt.mpr h, if_pos h]

/-!  ### The search engine  -/

theorem count_pieces_le (b : Board) (c : Color) : b.count_pieces c ≤ 64 := by
  unfold Board.count_pieces
  have h := List.length_filter_le (fun f => decide (b.get f = some c)) Field.all
  have h64 : Field.all.length = 64 := by decide
  omega

theorem eval_bounds (b : Board) : i32MIN ≤ eval b ∧ eval b ≤ i32MAX := by
  have hw := count_pieces_le b .white
  have hb := count_pieces_le b .black
  unfold eval
  rcases hst : b.status with _ | c | _
  · simp only []
    unfold i32MIN i32MAX
    omega
  · cases c <;> simp only [] <;> unfold i32MIN i32MAX <;> omega
  · simp only []
    unfold i32MIN i32MAX
    omega

theorem minimaxChoose_cases (s : MinimaxStrategy) (best : Option Field × Int)
    (f : Field) (ev : Int) :
    minimaxChoose s best f ev = best ∨ minimaxChoose s best f ev = (some f, ev) := by
  cases s <;> simp only [minimaxChoose] <;> split
  · right; rfl
  · left; rfl
  · right; rfl
  · left; rfl

theorem foldl_choose_bounds (s : MinimaxStrategy) (evf : Field → Int)
    (hev : ∀ f : Field, i32MIN ≤ evf f ∧ evf f ≤ i32MAX) :
    ∀ (ms : List Field) (acc : Option Field × Int),
      i32MIN ≤ acc.2 → acc.2 ≤ i32MAX →
      i32MIN ≤ (ms.foldl (fun best f => minimaxChoose s best f (evf f)) acc).2 ∧
        (ms.foldl (fun best f => minimaxChoose s best f (evf f)) acc).2 ≤ i32MAX := by
  intro ms
  induction ms with
  | nil => exact fun acc h1 h2 => ⟨h1, h2⟩
  | cons a t ih =>
    intro acc h1 h2
    rw [List.foldl_cons]
    rcases minimaxChoose_cases s acc a (evf a) with hc | hc <;> rw [hc]
    · exact ih acc h1 h2
    · exact ih _ (hev a).1 (hev a).2

theorem minimax_bounds (d : Nat) :
    ∀ (b : Board) (s : MinimaxStrategy),
      i32MIN ≤ (minimax b d s).2 ∧ (minimax b d s).2 ≤ i32MAX := by
  induction d with
  | zero =>
    intro b s
    exact eval_bounds b
  | succ d ih =>
    intro b s
    rw [minimax]
    by_cases hs : b.status ≠ .inProgress
    · rw [if_pos hs]
      exact eval_bounds b
    · rw [if_neg hs]
      refine foldl_choose_bounds s
        (fun f => (minimax ((b.add_piece f s.color).1) d s.other).2)
        (fun f => ih _ s.other) _ _ ?_ ?_
      · cases s <;> simp [MinimaxStrategy.worst_value, i32MIN, i32MAX]
      · cases s <;> simp [MinimaxStrategy.worst_value, i32MIN, i32MAX]

/-- When every candidate move evaluates to the same value `v`, the
greater-or-equal (Maximize) / less-or-equal (Minimize) replacement policy
keeps replacing the best choice, so the *last* candidate wins. -/
theorem foldl_choose_const (s : MinimaxStrategy) (evf : Field → Int) (v : Int) :
    ∀ (ms : List Field) (hne : ms ≠ []) (acc : Option Field × Int),
      (∀ f ∈ ms, evf f = v) →
      (match s with | .maximize => acc.2 ≤ v | .minimize => v ≤ acc.2) →
      ms.foldl (fun best f => minimaxChoose s best f (evf f)) acc =
        (some (ms.getLast hne), v) := by
  intro ms
  induction ms with
  | nil => intro hne; exact absurd rfl hne
  | cons a t ih =>
    intro hne acc hv hcmp
    rw [List.foldl_cons]
    have hva : evf a = v := hv a (by simp)
    have hstep : minimaxChoose s acc a (evf a) = (some a, v) := by
      rw [hva]
      cases s <;> simp only [minimaxChoose]
      · rw [if_pos hcmp]
      · rw [if_pos hcmp]
    rw [hstep]
    cases t with
    | nil => simp [List.getLast]
    | cons a' t' =>
      have hne' : a' :: t' ≠ [] := by simp
      rw [List.getLast_cons hne']
      refine ih hne' (some a, v) (fun f hf => hv f (by simp [hf])) ?_
      cases s <;> simp

/-!  ### Parsing lemmas  -/

theorem char_eq_of_toNat_eq {c d : Char} (h : c.toNat = d.toNat) : c = d :=
  Char.ofNat_toNat c ▸ Char.ofNat_toNat d ▸ congrArg Char.ofNat h

/-- The scan `('a'..='h').position` fails exactly for characters outside `'a'..'h'`. -/
theorem letterPos_eq_none_iff (c : Char) :
    letterPos c = none ↔ ¬(97 ≤ c.toNat ∧ c.toNat ≤ 104) := by
  rw [letterPos, List.findIdx?_eq_none_iff]
  constructor
  · intro h hrange
    have h8 : c.toNat = 97 ∨ c.toNat = 98 ∨ c.toNat = 99 ∨ c.toNat = 100 ∨
        c.toNat = 101 ∨ c.toNat = 102 ∨ c.toNat = 103 ∨ c.toNat = 104 := by omega
    have hc : c = 'a' ∨ c = 'b' ∨ c = 'c' ∨ c = 'd' ∨ c = 'e' ∨ c = 'f' ∨
        c = 'g' ∨ c = 'h' := by
      rcases h8 with h' | h' | h' | h' | h' | h' | h' | h'
      · exact Or.inl (char_eq_of_toNat_eq (by rw [h']; rfl))
      · exact Or.inr (Or.inl (char_eq_of_toNat_eq (by rw [h']; rfl)))
      · exact Or.inr (Or.inr (Or.inl (char_eq_of_toNat_eq (by rw [h']; rfl))))
      · exact Or.inr (Or.inr (Or.inr (Or.inl (char_eq_of_toNat_eq (by rw [h']; rfl)))))
      · exact Or.inr (Or.inr (Or.inr (Or.inr (Or.inl
          (char_eq_of_toNat_eq (by rw [h']; rfl))))))
      · exact Or.inr (Or.inr (Or.inr (Or.inr (Or.inr (Or.inl
          (char_eq_of_toNat_eq (by rw [h']; rfl)))))))
      · exact Or.inr (Or.inr (Or.inr (Or.inr (Or.inr (Or.inr (Or.inl
          (char_eq_of_toNat_eq (by rw [h']; rfl))))))))
      · exact Or.inr (Or.inr (Or.inr (Or.inr (Or.inr (Or.inr (Or.inr
          (char_eq_of_toNat_eq (by rw [h']; rfl))))))))
    rcases hc with rfl | rfl | rfl | rfl | rfl | rfl | rfl | rfl <;> simp_all
  · intro hrange x hx
    refine decide_eq_false ?_
    intro heq
    subst heq
    fin_cases hx <;> exact hrange (by decide)

/-!  ### Example boards used by the witnesses  -/

/-- A board with a single White piece at (0,0) and a single Black piece at
(1,0): White's only legal move is (2,0); Black has no legal move. -/
def exBoardPass : Board :=
  (Board.empty.set ⟨0, 0⟩ (some .white)).set ⟨1, 0⟩ (some .black)

/-- A board with White at (0,0) and (2,0) and Black at (7,7): neither color
has a legal move, the board is not full, and White is ahead 2–1. -/
def exBoardStuck : Board :=
  ((Board.empty.set ⟨0, 0⟩ (some .white)).set ⟨2, 0⟩ (some .white)).set
    ⟨7, 7⟩ (some .black)

/-!  ### The claims  -/

/-- C1: whenever `move_validity` succeeds, the returned list of captured
coordinates contains each coordinate at most once, even when several anchor
pieces produce overlapping or identical directional intervals. -/
theorem C1_captured_nodup (b : Board) (f : Field) (c : Color) (l : List Field)
    (h : b.move_validity f c = .ok l) : l.Nodup := by
  obtain ⟨hl, -, -⟩ := move_validity_ok h
  rw [hl]
  exact captures_nodup b f c

theorem C1_witness :
    Board.new.move_validity ⟨2, 4⟩ .white = .ok [⟨3, 4⟩] ∧
      ([⟨3, 4⟩] : List Field).Nodup :=
  ⟨by decide, C1_captured_nodup Board.new ⟨2, 4⟩ .white [⟨3, 4⟩] (by decide)⟩

/-- C5: whenever `add_piece` returns a failure, the board after the call is
equal to the board before the call. -/
theorem C5_failure_preserves_board (b : Board) (f : Field) (c : Color)
    (e : PlaceError) (h : (b.add_piece f c).2 = .error e) :
    (b.add_piece f c).1 = b := by
  unfold Board.add_piece at h ⊢
  cases hmv : b.move_validity f c with
  | error e' => rfl
  | ok cap =>
    rw [hmv] at h
    exact absurd h (by simp)

theorem C5_witness :
    (Board.new.add_piece ⟨0, 0⟩ .white).2 = .error .capturesNone ∧
      (Board.new.add_piece ⟨0, 0⟩ .white).1 = Board.new :=
  ⟨by decide, C5_failure_preserves_board Board.new ⟨0, 0⟩ .white .capturesNone (by decide)⟩

/-- C6: formatting then parsing is the identity on all 64 in-bounds
coordinates, and `format` maps (3,3) to "d5", (0,0) to "a8", (7,7) to "h1". -/
theorem C6_roundtrip :
    (∀ f : Field, f.in_bounds = true → Field.from_str (Field.format f) = .ok f) ∧
      Field.format ⟨3, 3⟩ = ['d', '5'] ∧ Field.format ⟨0, 0⟩ = ['a', '8'] ∧
      Field.format ⟨7, 7⟩ = ['h', '1'] := by
  refine ⟨?_, by decide, by decide, by decide⟩
  have hall : ∀ x ∈ List.range 8, ∀ y ∈ List.range 8,
      Field.from_str (Field.format ⟨x, y⟩) = .ok ⟨x, y⟩ := by decide
  intro f hf
  simp [Field.in_bounds] at hf
  exact hall f.x (List.mem_range.mpr hf.1) f.y (List.mem_range.mpr hf.2)

theorem C6_witness :
    (Field.mk 3 3).in_bounds = true ∧
      Field.from_str (Field.format ⟨3, 3⟩) = .ok ⟨3, 3⟩ :=
  ⟨by decide, C6_roundtrip.1 ⟨3, 3⟩ (by decide)⟩

/-- C9 counterexample: `neighbors` of (3,3) *does* contain (3,3) itself and
has 9 elements, refuting "at most 8 coordinates, not including c itself". -/
theorem C9_counterexample :
    (⟨3, 3⟩ : Field) ∈ (Field.mk 3 3).neighbors ∧
      (Field.mk 3 3).neighbors.length = 9 := by decide

/-- C9 (amended): for an in-bounds coordinate `c`, `neighbors(c)` returns
exactly the in-bounds coordinates at Chebyshev distance at most 1 from `c` —
at most 9 coordinates, *including* `c` itself. -/
theorem C9_neighbors_amended :
    ∀ f g : Field, f.in_bounds = true →
      (g ∈ f.neighbors ↔ g.in_bounds = true ∧ g.x ≤ f.x + 1 ∧ f.x ≤ g.x + 1 ∧
          g.y ≤ f.y + 1 ∧ f.y ≤ g.y + 1) ∧
        f ∈ f.neighbors ∧ f.neighbors.length ≤ 9 := by
  have hlen : ∀ f ∈ Field.all, f.neighbors.length ≤ 9 := by decide
  intro f g hf
  refine ⟨mem_neighbors_iff hf, ?_, hlen f (mem_all_of_in_bounds hf)⟩
  exact (mem_neighbors_iff hf).mpr ⟨hf, by omega, by omega, by omega, by omega⟩

theorem C9_witness :
    ((⟨2, 2⟩ : Field) ∈ (Field.mk 3 3).neighbors ↔
        (⟨2, 2⟩ : Field).in_bounds = true ∧ 2 ≤ 3 + 1 ∧ 3 ≤ 2 + 1 + 1 ∧
          2 ≤ 3 + 1 ∧ 3 ≤ 2 + 1 + 1) ∧
      (⟨3, 3⟩ : Field) ∈ (Field.mk 3 3).neighbors ∧
        (Field.mk 3 3).neighbors.length ≤ 9 := by
  have h := C9_neighbors_amended ⟨3, 3⟩ ⟨2, 2⟩ (by decide)
  exact ⟨by simpa using h.1, h.2.1, h.2.2⟩

/-- C10: a successful `add_piece` returning `n` captured pieces raises the
mover's piece count by exactly `n + 1`, lowers the opponent's piece count by
exactly `n`, and leaves every cell outside the target and the captured list
unchanged. -/
theorem C10_add_piece_counts (b : Board) (f : Field) (c : Color) (b' : Board)
    (cap : List Field) (h : b.add_piece f c = (b', .ok cap)) :
    b'.count_pieces c = b.count_pieces c + cap.length + 1 ∧
      b.count_pieces c.other = b'.count_pieces c.other + cap.length ∧
      ∀ g : Field, g ≠ f → g ∉ cap → b'.get g = b.get g :=
  ⟨(add_piece_counts h).1, (add_piece_counts h).2,
    (add_piece_char h).2.2.2.2.2.2.2⟩

theorem C10_witness :
    (Board.new.add_piece ⟨2, 4⟩ .white).1.count_pieces .white =
        Board.new.count_pieces .white + 2 ∧
      Board.new.count_pieces .black =
        (Board.new.add_piece ⟨2, 4⟩ .white).1.count_pieces .black + 1 := by
  have h := C10_add_piece_counts Board.new ⟨2, 4⟩ .white
    (Board.new.add_piece ⟨2, 4⟩ .white).1 [⟨3, 4⟩]
    (Prod.ext rfl (by decide))
  exact ⟨h.1, h.2.1⟩

/-- C2: on a board that is not full, where both colors still have pieces and
neither color has a legal move, `status` resolves the game by piece count —
win for the strictly larger count, draw on equality, never in-progress. -/
theorem C2_double_pass (b : Board)
    (hfull : (Field.all.all fun f => (b.get f).isSome) = false)
    (hw : b.count_pieces .white ≠ 0) (hb : b.count_pieces .black ≠ 0)
    (hvw : b.valid_moves .white = []) (hvb : b.valid_moves .black = []) :
    b.status ≠ .inProgress ∧
      (b.count_pieces .black < b.count_pieces .white → b.status = .win .white) ∧
      (b.count_pieces .white < b.count_pieces .black → b.status = .win .black) ∧
      (b.count_pieces .white = b.count_pieces .black → b.status = .draw) := by
  have hst := status_of_double_pass hfull hw hb hvw hvb
  rw [hst, final_status_spec]
  refine ⟨?_, ?_, ?_, ?_⟩
  · split_ifs <;> simp
  · intro h
    rw [if_pos h]
  · intro h
    rw [if_neg (by omega), if_pos h]
  · intro h
    rw [if_neg (by omega), if_neg (by omega)]

theorem C2_witness : exBoardStuck.status = .win .white := by
  have h := C2_double_pass exBoardStuck (by decide) (by decide) (by decide)
    (by decide) (by decide)
  exact h.2.1 (by decide)

/-- C3: on an in-progress board, at depth ≥ 1, when the side to move has no
legal move, `minimax` returns no coordinate together with the worst possible
value for that strategy (the minimum representable i32 for Maximize, the
maximum representable i32 for Minimize). -/
theorem C3_forced_pass (b : Board) (d : Nat) (s : MinimaxStrategy)
    (hst : b.status = .inProgress) (hvm : b.valid_moves s.color = []) :
    minimax b (d + 1) s = (none, s.worst_value) ∧
      MinimaxStrategy.worst_value .maximize = i32MIN ∧
      MinimaxStrategy.worst_value .minimize = i32MAX := by
  refine ⟨?_, rfl, rfl⟩
  rw [minimax, if_neg (by simp [hst]), hvm]
  rfl

theorem C3_witness :
    minimax exBoardPass 1 .minimize = (none, MinimaxStrategy.worst_value .minimize) :=
  (C3_forced_pass exBoardPass 0 .minimize (by decide) (by decide)).1

/-- C4: a later-enumerated candidate replaces the current best whenever its
child evaluation is greater-or-equal (Maximize) or less-or-equal (Minimize)
to the current best value, so among equally-valued candidates `minimax`
chooses the *last* one in the fixed enumeration order. -/
theorem C4_tie_break :
    (∀ (best : Option Field × Int) (f : Field) (ev : Int), best.2 ≤ ev →
        minimaxChoose .maximize best f ev = (some f, ev)) ∧
      (∀ (best : Option Field × Int) (f : Field) (ev : Int), ev ≤ best.2 →
        minimaxChoose .minimize best f ev = (some f, ev)) ∧
      ∀ (b : Board) (d : Nat) (s : MinimaxStrategy) (ms : List Field) (v : Int)
        (hne : ms ≠ []), b.status = .inProgress → b.valid_moves s.color = ms →
        (∀ f ∈ ms, (minimax ((b.add_piece f s.color).1) d s.other).2 = v) →
        minimax b (d + 1) s = (some (ms.getLast hne), v) := by
  refine ⟨?_, ?_, ?_⟩
  · intro best f ev h
    simp only [minimaxChoose]
    rw [if_pos h]
  · intro best f ev h
    simp only [minimaxChoose]
    rw [if_pos h]
  · intro b d s ms v hne hst hvm hv
    rw [minimax, if_neg (by simp [hst]), hvm]
    have hvbound : i32MIN ≤ v ∧ v ≤ i32MAX := by
      obtain ⟨f0, hf0⟩ := List.exists_mem_of_ne_nil ms hne
      rw [← hv f0 hf0]
      exact minimax_bounds d _ s.other
    refine foldl_choose_const s _ v ms hne _ hv ?_
    cases s
    · simpa [MinimaxStrategy.worst_value] using hvbound.2
    · simpa [MinimaxStrategy.worst_value] using hvbound.1

theorem C4_witness :
    minimaxChoose .maximize (none, (0 : Int)) ⟨2, 0⟩ 3 = (some ⟨2, 0⟩, 3) ∧
      minimax exBoardPass 1 .maximize = (some ⟨2, 0⟩, i32MAX) := by
  refine ⟨C4_tie_break.1 (none, 0) ⟨2, 0⟩ 3 (by norm_num), ?_⟩
  exact C4_tie_break.2.2 exBoardPass 0 .maximize [⟨2, 0⟩] i32MAX (by simp)
    (by decide) (by decide) (by decide)

/-- C7 counterexample: the two-character string "a0" has its digit outside
1..8, yet parsing *succeeds*, producing the out-of-bounds coordinate (0, 8)
(`checked_sub(8, 0)` does not fail). -/
theorem C7_counterexample :
    Field.from_str ['a', '0'] = .ok ⟨0, 8⟩ ∧ charToDigit '0' = some 0 ∧
      (Field.mk 0 8).in_bounds = false := by decide

/-- C7 (amended): parsing fails with `InvalidLength` for every string whose
length is not 2 — except that a non-digit second character is reported as
`InvalidNumber` first; a first character outside 'a'..'h' fails with
`OutOfBounds`; a non-digit second character fails with `InvalidNumber`; a
digit of 9 fails with `OutOfBounds` (the same kind as the letter failure, so
the three failure classes do *not* carry pairwise distinct kinds); and a
digit of 0 is *accepted*, producing the out-of-bounds coordinate (x, 8). -/
theorem C7_amended :
    (∀ s : List Char, s.length ≠ 2 →
        ∃ e, Field.from_str s = .error e ∧
          (e = .invalidLength ∨ e = .invalidNumber)) ∧
      (∀ c1 c2 : Char, ¬(97 ≤ c1.toNat ∧ c1.toNat ≤ 104) → charToDigit c2 ≠ none →
        Field.from_str [c1, c2] = .error .outOfBounds) ∧
      (∀ c1 c2 : Char, charToDigit c2 = none →
        Field.from_str [c1, c2] = .error .invalidNumber) ∧
      (∀ (c1 c2 : Char) (d : Nat), charToDigit c2 = some d → 9 ≤ d →
        Field.from_str [c1, c2] = .error .outOfBounds) ∧
      ∀ (c1 c2 : Char) (px : Nat), charToDigit c2 = some 0 →
        letterPos c1 = some px →
        Field.from_str [c1, c2] = .ok ⟨px, 8⟩ ∧ (Field.mk px 8).in_bounds = false := by
  refine ⟨?_, ?_, ?_, ?_, ?_⟩
  · intro s hlen
    match s with
    | [] => exact ⟨.invalidLength, rfl, Or.inl rfl⟩
    | [a] => exact ⟨.invalidLength, rfl, Or.inl rfl⟩
    | a :: b :: t =>
      have ht : t ≠ [] := by
        intro hc
        rw [hc] at hlen
        simp at hlen
      cases hd : charToDigit b with
      | none =>
        refine ⟨.invalidNumber, ?_, Or.inr rfl⟩
        simp [Field.from_str, hd]
      | some d =>
        refine ⟨.invalidLength, ?_, Or.inl rfl⟩
        simp [Field.from_str, hd, ht]
  · intro c1 c2 hrange hdig
    obtain ⟨d, hd⟩ := Option.ne_none_iff_exists'.mp hdig
    have hlp : letterPos c1 = none := (letterPos_eq_none_iff c1).mpr hrange
    simp [Field.from_str, hd, hlp]
  · intro c1 c2 hd
    simp [Field.from_str, hd]
  · intro c1 c2 d hd h9
    cases hlp : letterPos c1 with
    | none => simp [Field.from_str, hd, hlp]
    | some px =>
      have hcs : checkedSub8 d = none := by
        unfold checkedSub8
        rw [if_neg (by omega)]
      simp [Field.from_str, hd, hlp, hcs]
  · intro c1 c2 px hd hlp
    have hcs : checkedSub8 0 = some 8 := by decide
    constructor
    · simp [Field.from_str, hd, hlp, hcs]
    · simp [Field.in_bounds]

theorem C7_witness :
    Field.from_str ['z', '1'] = .error .outOfBounds ∧
      Field.from_str ['a', '9'] = .error .outOfBounds ∧
      Field.from_str ['a', '0'] = .ok ⟨0, 8⟩ :=
  ⟨C7_amended.2.1 'z' '1' (by decide) (by decide),
    C7_amended.2.2.2.1 'a' '9' 9 (by decide) (by decide),
    (C7_amended.2.2.2.2 'a' '0' 0 (by decide) (by decide)).1⟩

/-- C8: the neighbor-occupancy fast path is a pure optimization — when no
neighbor of an in-bounds empty target is occupied the full anchor/line scan
captures nothing, and `move_validity` with and without the fast path agree on
*every* input. -/
theorem C8_fastpath :
    (∀ (b : Board) (f : Field) (c : Color), f.in_bounds = true →
        b.get f = none → (f.neighbors.all fun g => (b.get g).isNone) = true →
        b.captures f c = []) ∧
      ∀ (b : Board) (f : Field) (c : Color),
        b.move_validity f c = b.move_validity_nofast f c := by
  refine ⟨?_, move_validity_eq_nofast⟩
  intro b f c hf _ hemp
  exact captures_eq_nil hf hemp

theorem C8_witness :
    Board.empty.captures ⟨0, 0⟩ .white = [] ∧
      Board.empty.move_validity ⟨0, 0⟩ .white =
        Board.empty.move_validity_nofast ⟨0, 0⟩ .white :=
  ⟨C8_fastpath.1 Board.empty ⟨0, 0⟩ .white (by decide) (by decide) (by decide),
    C8_fastpath.2 Board.empty ⟨0, 0⟩ .white⟩

end Reversi
